import Mathlib

/-!
# StockTracker — verification of the portfolio / rule-engine core

Shallow embedding of the StockTracker repository's core logic:

* `src/utils/portfolio.py` — portfolio valuation, breakdown, metrics,
  market-cap banding;
* `src/utils/data_persistence.py` / `src/utils/database.py` — the
  incremental holdings update performed by `add_transaction`;
* `src/app.py` — the full-replay holdings computation;
* `src/utils/trading_rules.py` — trading-rule evaluation and validation.

Prices, quantities and market caps are modelled as rationals (`ℚ`); Python
dicts are modelled as association lists over `String` keys; the external
market-data collaborator (`get_stock_price` / `get_stock_info`) is modelled
as an explicit lookup result passed into each operation.
-/

namespace StockTracker

/-- Transaction kind: `'buy'` or `'sell'` in the Python ledger records. -/
inductive TxnType where
  | buy
  | sell
deriving DecidableEq, Repr

/-- A ledger transaction (`symbol`, `type`, `quantity`, `price`), as stored
by `add_transaction` in `src/utils/data_persistence.py`. -/
structure Txn where
  symbol : String
  kind : TxnType
  quantity : ℚ
  price : ℚ
deriving DecidableEq, Repr

/-! ## Association-list model of Python dicts -/

/-- `d.get(s)` / `d[s]` on a Python dict: first binding of `s`, if any. -/
def getKey {α : Type} : List (String × α) → String → Option α
  | [], _ => none
  | p :: rest, s => if p.1 = s then some p.2 else getKey rest s

/-- `d[s] = v` when `s` is already a key: replace every binding of `s`. -/
def setKey {α : Type} (m : List (String × α)) (s : String) (v : α) :
    List (String × α) :=
  m.map (fun p => if p.1 = s then (s, v) else p)

/-- `del d[s]`: remove every binding of `s`. -/
def eraseKey {α : Type} : List (String × α) → String → List (String × α)
  | [], _ => []
  | p :: rest, s =>
      if p.1 = s then eraseKey rest s else p :: eraseKey rest s

/-- `d[s] = v` on a Python dict: overwrite if present, else append. -/
def insertKey {α : Type} (m : List (String × α)) (s : String) (v : α) :
    List (String × α) :=
  if (getKey m s).isSome then setKey m s v else m ++ [(s, v)]

/-- `d[s] = d.get(s, 0) + v`: the accumulate-into-key idiom used by the
breakdown loops. -/
def addToKey (m : List (String × ℚ)) (s : String) (v : ℚ) :
    List (String × ℚ) :=
  match getKey m s with
  | some w => setKey m s (w + v)
  | none => m ++ [(s, v)]

/-- The keys of an association list are pairwise distinct (true of every
Python dict; maintained by all dict operations modelled here). -/
def keysNodup {α : Type} (m : List (String × α)) : Prop :=
  (m.map Prod.fst).Nodup

/-! ## Market-cap banding (`src/utils/portfolio.py`) -/

/-- `categorize_by_market_cap` (portfolio.py lines 234–247): the six-band
classification used by `get_position_details`. -/
def categorizeByMarketCap (marketCap : ℚ) : String :=
  if 200000000000 ≤ marketCap then "Mega Cap"
  else if 10000000000 ≤ marketCap then "Large Cap"
  else if 2000000000 ≤ marketCap then "Mid Cap"
  else if 300000000 ≤ marketCap then "Small Cap"
  else if 50000000 ≤ marketCap then "Micro Cap"
  else "Nano Cap"

/-- The inline market-cap classification of `get_portfolio_breakdown`
(portfolio.py lines 101–110): only four bands, no Mega and no Nano. -/
def capCategoryBreakdown (marketCap : ℚ) : String :=
  if 10000000000 ≤ marketCap then "Large Cap"
  else if 2000000000 ≤ marketCap then "Mid Cap"
  else if 300000000 ≤ marketCap then "Small Cap"
  else "Micro Cap"

/-- Spec-side definition (for the refinement comparison): the banding table
of the specification, "Mega ≥200B, Large ≥10B, Mid ≥2B, Small ≥300M,
Micro ≥50M, else Nano". -/
def specSixBand (marketCap : ℚ) : String :=
  if 200000000000 ≤ marketCap then "Mega Cap"
  else if 10000000000 ≤ marketCap then "Large Cap"
  else if 2000000000 ≤ marketCap then "Mid Cap"
  else if 300000000 ≤ marketCap then "Small Cap"
  else if 50000000 ≤ marketCap then "Micro Cap"
  else "Nano Cap"

/-- Spec-side definition (for the refinement comparison): the four bands
the breakdown code actually assigns. -/
def specFourBand (marketCap : ℚ) : String :=
  if 10000000000 ≤ marketCap then "Large Cap"
  else if 2000000000 ≤ marketCap then "Mid Cap"
  else if 300000000 ≤ marketCap then "Small Cap"
  else "Micro Cap"

end StockTracker

namespace StockTracker

/-- C1 counterexample helper value: 200 billion dollars. -/
def twoHundredBillion : ℚ := 200000000000

/-! ## Holdings: full replay (`src/app.py` lines 176–190) and the
incremental update of `add_transaction`
(`src/utils/data_persistence.py` lines 177–186,
`src/utils/database.py` lines 163–172). -/

/-- Signed quantity of a transaction: `+quantity` on a buy, `−quantity` on
a sell. -/
def signedQty (t : Txn) : ℚ :=
  match t.kind with
  | .buy => t.quantity
  | .sell => -t.quantity

/-- One step of the full-replay accumulation in `src/app.py`:
`current_portfolio[symbol] = 0` if absent, then `+= quantity` on a buy and
`-= quantity` on a sell. -/
def accumStep (m : List (String × ℚ)) (t : Txn) : List (String × ℚ) :=
  match getKey m t.symbol with
  | some v => setKey m t.symbol (v + signedQty t)
  | none => m ++ [(t.symbol, signedQty t)]

/-- The raw signed accumulator after replaying the whole ledger. -/
def rawHoldings (txs : List Txn) : List (String × ℚ) :=
  txs.foldl accumStep []

/-- Full replay (`src/app.py`): accumulate signed quantities over the whole
ledger, then keep only symbols with accumulated quantity `> 0`
(`{k: v for k, v in current_portfolio.items() if v > 0}`). -/
def computeHoldings (txs : List Txn) : List (String × ℚ) :=
  (rawHoldings txs).filter (fun p => 0 < p.2)

/-- Net signed quantity a transaction list accumulates for a symbol. -/
def accQty : List Txn → String → ℚ
  | [], _ => 0
  | t :: rest, s =>
      (if t.symbol = s then signedQty t else 0) + accQty rest s

/-- A symbol occurs in a transaction list. -/
def mentions (txs : List Txn) (s : String) : Bool :=
  txs.any (fun t => t.symbol = s)

/-- The incremental holdings update of `add_transaction`: on a buy, add the
quantity (inserting the symbol if new); on a sell of a held symbol,
subtract and delete the symbol when the result is `≤ 0`; a sell of a symbol
not held is ignored. -/
def applyTxn (m : List (String × ℚ)) (t : Txn) : List (String × ℚ) :=
  match t.kind with
  | .buy =>
      match getKey m t.symbol with
      | some v => setKey m t.symbol (v + t.quantity)
      | none => m ++ [(t.symbol, t.quantity)]
  | .sell =>
      match getKey m t.symbol with
      | some v =>
          if v - t.quantity ≤ 0 then eraseKey m t.symbol
          else setKey m t.symbol (v - t.quantity)
      | none => m

/-- Incremental holdings after applying a whole ledger one transaction at a
time through `add_transaction`, starting from an empty portfolio. -/
def incrementalHoldings (txs : List Txn) : List (String × ℚ) :=
  txs.foldl applyTxn []

/-- Every transaction has positive quantity. -/
def posQty (txs : List Txn) : Prop :=
  ∀ t ∈ txs, 0 < t.quantity

instance (txs : List Txn) : Decidable (posQty txs) :=
  List.decidableBAll _ txs

/-- No sell in the list (read left to right, `pre` being the part already
replayed) asks for more than the signed quantity accumulated so far for its
symbol. -/
def noOversellAux (pre : List Txn) : List Txn → Prop
  | [] => True
  | t :: rest =>
      (t.kind = TxnType.sell → t.quantity ≤ accQty pre t.symbol) ∧
        noOversellAux (pre ++ [t]) rest

/-- No sell in the ledger exceeds the net quantity accumulated for its
symbol by the preceding transactions. -/
def noOversell (txs : List Txn) : Prop :=
  noOversellAux [] txs

instance noOversellAuxDec :
    (pre l : List Txn) → Decidable (noOversellAux pre l)
  | _, [] => .isTrue trivial
  | pre, t :: rest =>
      haveI : Decidable (noOversellAux (pre ++ [t]) rest) :=
        noOversellAuxDec (pre ++ [t]) rest
      inferInstanceAs (Decidable (_ ∧ _))

instance (txs : List Txn) : Decidable (noOversell txs) :=
  noOversellAuxDec [] txs

/-- The positive part of a rational, as an optional dict entry. -/
def posOnly (x : ℚ) : Option ℚ :=
  if 0 < x then some x else none

/-! ### Lemmas about the association-list operations -/

theorem getKey_setKey_self {α : Type} (m : List (String × α)) (s : String)
    (v : α) : getKey (setKey m s v) s = (getKey m s).map (fun _ => v) := by
  induction m with
  | nil => rfl
  | cons p rest ih =>
      simp only [setKey, List.map_cons] at ih ⊢
      by_cases hp : p.1 = s
      · simp [getKey, hp]
      · simp [getKey, hp, ih]

theorem getKey_setKey_ne {α : Type} (m : List (String × α)) {s s' : String}
    (h : s' ≠ s) (v : α) : getKey (setKey m s v) s' = getKey m s' := by
  induction m with
  | nil => rfl
  | cons p rest ih =>
      simp only [setKey, List.map_cons] at ih ⊢
      by_cases hp : p.1 = s
      · have hps' : p.1 ≠ s' := by rw [hp]; exact Ne.symm h
        rw [if_pos hp]
        simp [getKey, Ne.symm h, hps', ih]
      · rw [if_neg hp]
        by_cases hp' : p.1 = s'
        · simp [getKey, hp', ih]
        · simp [getKey, hp', ih]

theorem getKey_eraseKey_self {α : Type} (m : List (String × α))
    (s : String) : getKey (eraseKey m s) s = none := by
  induction m with
  | nil => rfl
  | cons p rest ih =>
      by_cases hp : p.1 = s
      · rw [eraseKey, if_pos hp]; exact ih
      · rw [eraseKey, if_neg hp]
        simp [getKey, hp, ih]

theorem getKey_eraseKey_ne {α : Type} (m : List (String × α))
    {s s' : String} (h : s' ≠ s) :
    getKey (eraseKey m s) s' = getKey m s' := by
  induction m with
  | nil => rfl
  | cons p rest ih =>
      by_cases hp : p.1 = s
      · have hps' : p.1 ≠ s' := by rw [hp]; exact Ne.symm h
        rw [eraseKey, if_pos hp]
        simp [getKey, hps', ih]
      · rw [eraseKey, if_neg hp]
        by_cases hp' : p.1 = s'
        · simp [getKey, hp', ih]
        · simp [getKey, hp', ih]

theorem getKey_append {α : Type} (m l : List (String × α)) (s : String) :
    getKey (m ++ l) s =
      match getKey m s with
      | some v => some v
      | none => getKey l s := by
  induction m with
  | nil => simp [getKey]
  | cons p rest ih =>
      by_cases hp : p.1 = s <;> simp [getKey, hp, ih]

theorem getKey_eq_none_iff {α : Type} (m : List (String × α)) (s : String) :
    getKey m s = none ↔ s ∉ m.map Prod.fst := by
  induction m with
  | nil => simp [getKey]
  | cons p rest ih =>
      by_cases hp : p.1 = s
      · subst hp
        simp [getKey]
      · simp [getKey, hp, Ne.symm hp, ih]

theorem map_fst_setKey {α : Type} (m : List (String × α)) (s : String)
    (v : α) : (setKey m s v).map Prod.fst = m.map Prod.fst := by
  induction m with
  | nil => rfl
  | cons p rest ih =>
      by_cases hp : p.1 = s <;> simp [setKey, hp] at ih ⊢ <;>
        simpa [setKey] using ih

theorem keysNodup_setKey {α : Type} {m : List (String × α)}
    (h : keysNodup m) (s : String) (v : α) : keysNodup (setKey m s v) := by
  unfold keysNodup at h ⊢
  rw [map_fst_setKey]
  exact h

theorem keysNodup_append_new {α : Type} {m : List (String × α)} {s : String}
    (h : keysNodup m) (hs : getKey m s = none) (v : α) :
    keysNodup (m ++ [(s, v)]) := by
  have hs' : s ∉ m.map Prod.fst := (getKey_eq_none_iff m s).mp hs
  unfold keysNodup at h ⊢
  rw [List.map_append]
  rw [List.nodup_append]
  refine ⟨h, List.nodup_singleton s, ?_⟩
  intro a ha hb
  simp only [List.map_cons, List.map_nil, List.mem_singleton] at hb
  subst hb
  exact hs' ha

theorem mem_keys_eraseKey {α : Type} {m : List (String × α)} {s a : String}
    (h : a ∈ (eraseKey m s).map Prod.fst) : a ∈ m.map Prod.fst := by
  induction m with
  | nil => simp [eraseKey] at h
  | cons p rest ih =>
      by_cases hp : p.1 = s
      · rw [eraseKey, if_pos hp] at h
        exact List.mem_cons_of_mem _ (ih h)
      · rw [eraseKey, if_neg hp] at h
        rcases List.mem_cons.mp h with h1 | h2
        · exact h1 ▸ List.mem_cons_self _ _
        · exact List.mem_cons_of_mem _ (ih h2)

theorem keysNodup_eraseKey {α : Type} {m : List (String × α)}
    (h : keysNodup m) (s : String) : keysNodup (eraseKey m s) := by
  induction m with
  | nil => exact h
  | cons p rest ih =>
      have h' : p.1 ∉ rest.map Prod.fst ∧ keysNodup rest := by
        simpa [keysNodup, List.nodup_cons] using h
      by_cases hp : p.1 = s
      · rw [keysNodup, eraseKey, if_pos hp]
        exact ih h'.2
      · rw [keysNodup, eraseKey, if_neg hp, List.map_cons, List.nodup_cons]
        exact ⟨fun hc => h'.1 (mem_keys_eraseKey hc), ih h'.2⟩

theorem getKey_filter_of_nodup (m : List (String × ℚ))
    (h : keysNodup m) (s : String) :
    getKey (m.filter (fun p => 0 < p.2)) s =
      match getKey m s with
      | some v => if 0 < v then some v else none
      | none => none := by
  induction m with
  | nil => rfl
  | cons p rest ih =>
      have hrest : keysNodup rest := (List.nodup_cons.mp h).2
      have hhd : p.1 ∉ rest.map Prod.fst := (List.nodup_cons.mp h).1
      by_cases hp : p.1 = s
      · subst hp
        have hnone : getKey rest p.1 = none :=
          (getKey_eq_none_iff rest p.1).mpr hhd
        by_cases hpos : 0 < p.2
        · simp [getKey, List.filter, hpos]
        · have hfil : getKey (rest.filter (fun p => 0 < p.2)) p.1 = none := by
            rw [ih hrest, hnone]
          simp [getKey, List.filter, hpos, hfil, hnone]
      · by_cases hpos : 0 < p.2 <;>
          simp [getKey, List.filter, hpos, hp, ih hrest]

/-! ### Characterisation of the full replay -/

theorem accQty_append (l₁ l₂ : List Txn) (s : String) :
    accQty (l₁ ++ l₂) s = accQty l₁ s + accQty l₂ s := by
  induction l₁ with
  | nil => simp [accQty]
  | cons t rest ih => simp [accQty, ih]; ring

theorem accQty_eq_zero_of_not_mentions {txs : List Txn} {s : String}
    (h : mentions txs s = false) : accQty txs s = 0 := by
  induction txs with
  | nil => rfl
  | cons t rest ih =>
      simp [mentions, List.any_cons] at h
      simp [accQty, h.1, ih (by simpa [mentions] using h.2)]

theorem getKey_foldl_accumStep (txs : List Txn) :
    ∀ (m : List (String × ℚ)) (s : String),
      getKey (txs.foldl accumStep m) s =
        match getKey m s with
        | some v => some (v + accQty txs s)
        | none =>
            if mentions txs s then some (accQty txs s) else none := by
  induction txs with
  | nil =>
      intro m s
      cases h : getKey m s <;> simp [accQty, mentions, h]
  | cons t rest ih =>
      intro m s
      rw [List.foldl_cons, ih]
      by_cases hts : t.symbol = s
      · subst hts
        cases h : getKey m t.symbol with
        | some v =>
            have hstep : getKey (accumStep m t) t.symbol
                = some (v + signedQty t) := by
              simp [accumStep, h, getKey_setKey_self]
            rw [hstep]
            simp [accQty, mentions, add_assoc]
        | none =>
            have hstep : getKey (accumStep m t) t.symbol
                = some (signedQty t) := by
              simp [accumStep, h, getKey_append, getKey]
            rw [hstep]
            simp [accQty, mentions]
      · have hget : getKey (accumStep m t) s = getKey m s := by
          cases h : getKey m t.symbol with
          | some v =>
              simp [accumStep, h, getKey_setKey_ne m (Ne.symm hts)]
          | none =>
              simp only [accumStep, h, getKey_append]
              cases hg : getKey m s
              · simp [getKey, hts]
              · simp [getKey, hts]
        rw [hget]
        have hmen : mentions (t :: rest) s = mentions rest s := by
          simp [mentions, List.any_cons, hts]
        have hacc : accQty (t :: rest) s = accQty rest s := by
          simp [accQty, hts]
        rw [hmen, hacc]

theorem keysNodup_foldl_accumStep (txs : List Txn) :
    ∀ (m : List (String × ℚ)), keysNodup m →
      keysNodup (txs.foldl accumStep m) := by
  induction txs with
  | nil => intro m h; exact h
  | cons t rest ih =>
      intro m h
      rw [List.foldl_cons]
      refine ih _ ?_
      cases hg : getKey m t.symbol with
      | some v =>
          have hstep : accumStep m t = setKey m t.symbol (v + signedQty t) := by
            simp [accumStep, hg]
          rw [hstep]
          exact keysNodup_setKey h t.symbol (v + signedQty t)
      | none =>
          have hstep : accumStep m t = m ++ [(t.symbol, signedQty t)] := by
            simp [accumStep, hg]
          rw [hstep]
          exact keysNodup_append_new h hg (signedQty t)

theorem keysNodup_nil {α : Type} : keysNodup ([] : List (String × α)) :=
  List.nodup_nil

/-- The full replay computes exactly the positive part of the net signed
accumulation: a symbol is present iff its accumulated quantity is positive,
and then holds exactly that quantity. -/
theorem getKey_computeHoldings (txs : List Txn) (s : String) :
    getKey (computeHoldings txs) s = posOnly (accQty txs s) := by
  unfold computeHoldings rawHoldings
  rw [getKey_filter_of_nodup _ (keysNodup_foldl_accumStep txs [] keysNodup_nil)]
  rw [getKey_foldl_accumStep]
  cases hm : mentions txs s with
  | false => simp [getKey, hm, posOnly, accQty_eq_zero_of_not_mentions hm]
  | true => simp [getKey, hm, posOnly]

theorem posPart_eq_some_iff (x v : ℚ) :
    posOnly x = some v ↔ 0 < x ∧ x = v := by
  unfold posOnly
  by_cases h : 0 < x <;> simp [h]

theorem posPart_eq_none_iff (x : ℚ) : posOnly x = none ↔ x ≤ 0 := by
  unfold posOnly
  by_cases h : 0 < x <;> simp [h, le_of_not_lt, not_le_of_lt]

theorem accQty_single (t : Txn) (s : String) :
    accQty [t] s = if t.symbol = s then signedQty t else 0 := by
  simp [accQty]

theorem getKey_append_single_ne {α : Type} (m : List (String × α))
    {s s' : String} (h : s' ≠ s) (v : α) :
    getKey (m ++ [(s', v)]) s = getKey m s := by
  rw [getKey_append]
  cases hg : getKey m s
  · simp [getKey, h]
  · rfl

/-! ### The incremental update refines the full replay (no-oversell runs) -/

theorem getKey_foldl_applyTxn (txs : List Txn) :
    ∀ (pre : List Txn) (m : List (String × ℚ)),
      keysNodup m →
      (∀ s, getKey m s = posOnly (accQty pre s)) →
      (∀ s, 0 ≤ accQty pre s) →
      posQty txs →
      noOversellAux pre txs →
      ∀ s, getKey (txs.foldl applyTxn m) s = posOnly (accQty (pre ++ txs) s) := by
  induction txs with
  | nil =>
      intro pre m _ hinv _ _ _ s
      simpa using hinv s
  | cons t rest ih =>
      intro pre m hnd hinv hnn hq hno s
      have hqt : 0 < t.quantity := hq t (List.mem_cons_self t rest)
      have hqrest : posQty rest := fun u hu => hq u (List.mem_cons_of_mem t hu)
      have hkey : ∀ s', accQty (pre ++ [t]) s'
          = accQty pre s' + (if t.symbol = s' then signedQty t else 0) := by
        intro s'
        rw [accQty_append, accQty_single]
      have happ : pre ++ t :: rest = (pre ++ [t]) ++ rest := by
        simp
      rw [List.foldl_cons, happ]
      cases hk : t.kind with
      | buy =>
          have hsig : signedQty t = t.quantity := by simp [signedQty, hk]
          cases hg : getKey m t.symbol with
          | some v =>
              have hv : 0 < accQty pre t.symbol ∧ accQty pre t.symbol = v := by
                have := (hinv t.symbol).symm.trans hg
                exact (posPart_eq_some_iff _ _).mp this
              have hstep : applyTxn m t = setKey m t.symbol (v + t.quantity) := by
                simp [applyTxn, hk, hg]
              rw [hstep]
              refine ih (pre ++ [t]) _ (keysNodup_setKey hnd _ _) ?_ ?_ hqrest hno.2 s
              · intro s'
                by_cases hs' : t.symbol = s'
                · subst hs'
                  rw [getKey_setKey_self, hg, hkey]
                  simp only [if_pos rfl, hsig]
                  rw [← hv.2]
                  have hpos : 0 < accQty pre t.symbol + t.quantity :=
                    add_pos hv.1 hqt
                  simp [posOnly, hpos]
                · rw [getKey_setKey_ne m (Ne.symm hs'), hinv s', hkey]
                  simp [hs']
              · intro s'
                rw [hkey]
                by_cases hs' : t.symbol = s'
                · subst hs'
                  simp only [if_pos rfl, hsig]
                  exact add_nonneg (hnn t.symbol) (le_of_lt hqt)
                · simpa [hs'] using hnn s'
          | none =>
              have hz : accQty pre t.symbol = 0 := by
                have hle : accQty pre t.symbol ≤ 0 :=
                  (posPart_eq_none_iff _).mp ((hinv t.symbol).symm.trans hg)
                exact le_antisymm hle (hnn t.symbol)
              have hstep : applyTxn m t = m ++ [(t.symbol, t.quantity)] := by
                simp [applyTxn, hk, hg]
              rw [hstep]
              refine ih (pre ++ [t]) _ (keysNodup_append_new hnd hg _) ?_ ?_
                hqrest hno.2 s
              · intro s'
                by_cases hs' : t.symbol = s'
                · subst hs'
                  rw [getKey_append, hg, hkey, hz]
                  simp [getKey, posOnly, hsig, hqt]
                · rw [getKey_append_single_ne m hs', hinv s', hkey]
                  simp [hs']
              · intro s'
                rw [hkey]
                by_cases hs' : t.symbol = s'
                · subst hs'
                  simp only [if_pos rfl, hsig]
                  exact add_nonneg (hnn t.symbol) (le_of_lt hqt)
                · simpa [hs'] using hnn s'
      | sell =>
          have hsig : signedQty t = -t.quantity := by simp [signedQty, hk]
          have hsell : t.quantity ≤ accQty pre t.symbol := hno.1 hk
          have hacc : 0 < accQty pre t.symbol := lt_of_lt_of_le hqt hsell
          have hg : getKey m t.symbol = some (accQty pre t.symbol) := by
            rw [hinv t.symbol]
            simp [posOnly, hacc]
          by_cases hz : accQty pre t.symbol - t.quantity ≤ 0
          · have hstep : applyTxn m t = eraseKey m t.symbol := by
              simp [applyTxn, hk, hg, hz]
            rw [hstep]
            refine ih (pre ++ [t]) _ (keysNodup_eraseKey hnd _) ?_ ?_
              hqrest hno.2 s
            · intro s'
              by_cases hs' : t.symbol = s'
              · subst hs'
                rw [getKey_eraseKey_self, hkey, if_pos rfl, hsig]
                have hle : accQty pre t.symbol + -t.quantity ≤ 0 := by
                  linarith
                simp [posOnly, not_lt_of_le hle]
              · rw [getKey_eraseKey_ne m (Ne.symm hs'), hinv s', hkey]
                simp [hs']
            · intro s'
              rw [hkey]
              by_cases hs' : t.symbol = s'
              · subst hs'
                rw [if_pos rfl, hsig]
                linarith
              · simpa [hs'] using hnn s'
          · have hstep : applyTxn m t
                = setKey m t.symbol (accQty pre t.symbol - t.quantity) := by
              simp [applyTxn, hk, hg, hz]
            rw [hstep]
            refine ih (pre ++ [t]) _ (keysNodup_setKey hnd _ _) ?_ ?_
              hqrest hno.2 s
            · intro s'
              by_cases hs' : t.symbol = s'
              · subst hs'
                rw [getKey_setKey_self, hg, hkey, if_pos rfl, hsig]
                have hpos : 0 < accQty pre t.symbol + -t.quantity := by
                  linarith
                simp [posOnly, hpos, sub_eq_add_neg]
              · rw [getKey_setKey_ne m (Ne.symm hs'), hinv s', hkey]
                simp [hs']
            · intro s'
              rw [hkey]
              by_cases hs' : t.symbol = s'
              · subst hs'
                rw [if_pos rfl, hsig]
                linarith
              · simpa [hs'] using hnn s'

/-! ## Portfolio valuation and metrics
(`calculate_portfolio_value`, `calculate_portfolio_metrics` in
`src/utils/portfolio.py`). -/

/-- `calculate_portfolio_value`: sum `price × quantity` over holdings,
skipping symbols whose quote is unavailable or falsy (`if current_price:`),
with `0` contributed by skipped positions. -/
def calculatePortfolioValue (quote : String → Option ℚ)
    (portfolio : List (String × ℚ)) : ℚ :=
  portfolio.foldl
    (fun acc p =>
      match quote p.1 with
      | some price => if price = 0 then acc else acc + price * p.2
      | none => acc)
    0

/-- `df[df['type'] == 'buy']`. -/
def buyTxns (txs : List Txn) : List Txn :=
  txs.filter (fun t => t.kind = TxnType.buy)

/-- `df[df['type'] == 'sell']`. -/
def sellTxns (txs : List Txn) : List Txn :=
  txs.filter (fun t => t.kind = TxnType.sell)

/-- `df[df['symbol'] == s]`. -/
def symbolTxns (l : List Txn) (s : String) : List Txn :=
  l.filter (fun t => t.symbol = s)

/-- `(df['quantity'] * df['price']).sum()`. -/
def sumQP (l : List Txn) : ℚ :=
  (l.map (fun t => t.quantity * t.price)).sum

/-- `df['quantity'].sum()`. -/
def sumQ (l : List Txn) : ℚ :=
  (l.map Txn.quantity).sum

/-- `avg_buy_price` for a symbol: sum of buy totals over sum of buy
quantities (computed from buys only). -/
def avgBuyPrice (txs : List Txn) (s : String) : ℚ :=
  sumQP (symbolTxns (buyTxns txs) s) / sumQ (symbolTxns (buyTxns txs) s)

/-- `pandas.Series.unique()`: the distinct values in first-appearance
order. -/
def uniqueFirst (l : List String) : List String :=
  l.foldl (fun acc s => if s ∈ acc then acc else acc ++ [s]) []

/-- The realized-gains accumulation of `calculate_portfolio_metrics`
(portfolio.py lines 163–173): iterate the distinct symbols of the sell
transactions; skip a symbol with no buys; otherwise add
`(sell price − avg buy price) × sell quantity` over that symbol's sells. -/
def realizedGains (txs : List Txn) : ℚ :=
  (uniqueFirst ((sellTxns txs).map Txn.symbol)).foldl
    (fun acc s =>
      if (symbolTxns (buyTxns txs) s).isEmpty then acc
      else
        acc + ((symbolTxns (sellTxns txs) s).map
          (fun t => (t.price - avgBuyPrice txs s) * t.quantity)).sum)
    0

/-- The contribution of one sell transaction to realized gains, as the
claim words it: `(sell price − average buy cost) × quantity`, and `0`
(skipped) when the symbol has no buy transactions. -/
def perSellGain (txs : List Txn) (t : Txn) : ℚ :=
  if (symbolTxns (buyTxns txs) t.symbol).isEmpty then 0
  else (t.price - avgBuyPrice txs t.symbol) * t.quantity

/-- Spec-side definition (for comparison with `realizedGains`): realized
gains as the claim words them — one contribution per sell transaction. -/
def specRealizedGains (txs : List Txn) : ℚ :=
  ((sellTxns txs).map (perSellGain txs)).sum

/-- The per-symbol group term of the realized-gains loop. -/
def sellGroupTerm (txs : List Txn) (s : String) : ℚ :=
  if (symbolTxns (buyTxns txs) s).isEmpty then 0
  else ((symbolTxns (sellTxns txs) s).map
    (fun t => (t.price - avgBuyPrice txs s) * t.quantity)).sum

/-- The metrics dict built by `calculate_portfolio_metrics`. -/
structure Metrics where
  totalInvested : ℚ
  totalCurrentValue : ℚ
  totalReturn : ℚ
  totalReturnPercent : ℚ
  realizedGains : ℚ
  unrealizedGains : ℚ
  numberOfTrades : ℕ
deriving Repr

/-- `calculate_portfolio_metrics` (portfolio.py lines 136–183): `{}`
(modelled as `none`) on an empty transaction list; otherwise total invested
from buys, current value from quotes, realized gains, the reconciling
unrealized-gain identity, total return, and a division-guarded percent. -/
def calculatePortfolioMetrics (quote : String → Option ℚ)
    (portfolio : List (String × ℚ)) (txs : List Txn) : Option Metrics :=
  if txs.isEmpty then none
  else
    let totalInvested := sumQP (buyTxns txs)
    let totalCurrentValue := calculatePortfolioValue quote portfolio
    let realized := realizedGains txs
    let unrealized := totalCurrentValue - totalInvested + realized
    let totalRet := realized + unrealized
    some
      { totalInvested := totalInvested
        totalCurrentValue := totalCurrentValue
        totalReturn := totalRet
        totalReturnPercent :=
          if 0 < totalInvested then totalRet / totalInvested * 100 else 0
        realizedGains := realized
        unrealizedGains := unrealized
        numberOfTrades := txs.length }

/-! ### Lemmas for the realized-gains grouping -/

theorem mem_foldl_uniqueFirst (l : List String) :
    ∀ (acc : List String) (x : String),
      (x ∈ l.foldl (fun acc s => if s ∈ acc then acc else acc ++ [s]) acc)
        ↔ x ∈ acc ∨ x ∈ l := by
  induction l with
  | nil => intro acc x; simp
  | cons s rest ih =>
      intro acc x
      rw [List.foldl_cons, ih]
      by_cases hs : s ∈ acc
      · rw [if_pos hs]
        constructor
        · rintro (h | h)
          · exact Or.inl h
          · exact Or.inr (List.mem_cons_of_mem s h)
        · rintro (h | h)
          · exact Or.inl h
          · rcases List.mem_cons.mp h with rfl | h2
            · exact Or.inl hs
            · exact Or.inr h2
      · rw [if_neg hs]
        simp only [List.mem_append, List.mem_singleton, List.mem_cons]
        tauto

theorem nodup_foldl_uniqueFirst (l : List String) :
    ∀ (acc : List String), acc.Nodup →
      (l.foldl (fun acc s => if s ∈ acc then acc else acc ++ [s])
        acc).Nodup := by
  induction l with
  | nil => intro acc h; exact h
  | cons s rest ih =>
      intro acc h
      rw [List.foldl_cons]
      refine ih _ ?_
      by_cases hs : s ∈ acc
      · rw [if_pos hs]; exact h
      · rw [if_neg hs]
        rw [List.nodup_append]
        refine ⟨h, List.nodup_singleton s, ?_⟩
        intro a ha hb
        rw [List.mem_singleton] at hb
        subst hb
        exact hs ha

theorem mem_uniqueFirst (l : List String) (x : String) :
    x ∈ uniqueFirst l ↔ x ∈ l := by
  unfold uniqueFirst
  rw [mem_foldl_uniqueFirst]
  simp

theorem nodup_uniqueFirst (l : List String) : (uniqueFirst l).Nodup :=
  nodup_foldl_uniqueFirst l [] List.nodup_nil

theorem foldl_add_sum (g : String → ℚ) :
    ∀ (l : List String) (a : ℚ),
      l.foldl (fun acc s => acc + g s) a = a + (l.map g).sum := by
  intro l
  induction l with
  | nil => intro a; simp
  | cons s rest ih =>
      intro a
      rw [List.foldl_cons, ih]
      simp [add_assoc]

theorem sum_map_add (g1 g2 : String → ℚ) :
    ∀ l : List String,
      (l.map (fun s => g1 s + g2 s)).sum = (l.map g1).sum + (l.map g2).sum := by
  intro l
  induction l with
  | nil => simp
  | cons s rest ih =>
      rw [List.map_cons, List.sum_cons, ih, List.map_cons, List.sum_cons,
        List.map_cons, List.sum_cons]
      ring

theorem sum_map_ite_eq (x : String) (c : ℚ) :
    ∀ (syms : List String), syms.Nodup → x ∈ syms →
      (syms.map (fun s => if x = s then c else 0)).sum = c := by
  intro syms
  induction syms with
  | nil => intro _ h; simp at h
  | cons s rest ih =>
      intro hnd hmem
      rw [List.map_cons, List.sum_cons]
      rcases List.mem_cons.mp hmem with rfl | hx
      · rw [if_pos rfl]
        have hrest0 : (rest.map (fun s' => if x = s' then c else 0)).sum = 0 := by
          apply List.sum_eq_zero
          intro y hy
          rcases List.mem_map.mp hy with ⟨s', hs', rfl⟩
          have hne : ¬(x = s') := by
            intro hh
            subst hh
            exact (List.nodup_cons.mp hnd).1 hs'
          rw [if_neg hne]
        rw [hrest0, add_zero]
      · have hne : ¬(x = s) := by
          intro hh
          subst hh
          exact (List.nodup_cons.mp hnd).1 hx
        rw [if_neg hne, zero_add]
        exact ih (List.nodup_cons.mp hnd).2 hx

theorem group_cons (f : Txn → ℚ) (t : Txn) (rest : List Txn) (s : String) :
    (((t :: rest).filter (fun u => u.symbol = s)).map f).sum
      = (if t.symbol = s then f t else 0)
          + ((rest.filter (fun u => u.symbol = s)).map f).sum := by
  by_cases h : t.symbol = s
  · simp [List.filter_cons, h]
  · simp [List.filter_cons, h]

theorem group_sum (f : Txn → ℚ) :
    ∀ (l : List Txn) (syms : List String), syms.Nodup →
      (∀ t ∈ l, t.symbol ∈ syms) →
      (syms.map
        (fun s => ((l.filter (fun u => u.symbol = s)).map f).sum)).sum
        = (l.map f).sum := by
  intro l
  induction l with
  | nil =>
      intro syms _ _
      simp
  | cons t rest ih =>
      intro syms hnd hcov
      have h1 :
          (syms.map (fun s =>
            (((t :: rest).filter (fun u => u.symbol = s)).map f).sum)).sum
            = (syms.map (fun s =>
                (if t.symbol = s then f t else 0)
                  + ((rest.filter (fun u => u.symbol = s)).map f).sum)).sum := by
        refine congrArg List.sum (List.map_congr_left ?_)
        intro s _
        exact group_cons f t rest s
      rw [h1, sum_map_add,
        sum_map_ite_eq t.symbol (f t) syms hnd
          (hcov t (List.mem_cons_self t rest)),
        ih syms hnd (fun u hu => hcov u (List.mem_cons_of_mem t hu)),
        List.map_cons, List.sum_cons]

theorem realizedGains_eq_sum_groups (txs : List Txn) :
    realizedGains txs
      = ((uniqueFirst ((sellTxns txs).map Txn.symbol)).map
          (sellGroupTerm txs)).sum := by
  unfold realizedGains
  have hfun :
      (fun (acc : ℚ) (s : String) =>
        if (symbolTxns (buyTxns txs) s).isEmpty then acc
        else
          acc + ((symbolTxns (sellTxns txs) s).map
            (fun t => (t.price - avgBuyPrice txs s) * t.quantity)).sum)
      = fun (acc : ℚ) (s : String) => acc + sellGroupTerm txs s := by
    funext acc s
    by_cases h : (symbolTxns (buyTxns txs) s).isEmpty
    · simp [sellGroupTerm, h]
    · simp [sellGroupTerm, h]
  rw [hfun, foldl_add_sum (sellGroupTerm txs), zero_add]

theorem sellGroupTerm_eq_group (txs : List Txn) (s : String) :
    sellGroupTerm txs s
      = (((sellTxns txs).filter (fun u => u.symbol = s)).map
          (perSellGain txs)).sum := by
  unfold sellGroupTerm
  by_cases h : (symbolTxns (buyTxns txs) s).isEmpty
  · rw [if_pos h]
    symm
    apply List.sum_eq_zero
    intro y hy
    rcases List.mem_map.mp hy with ⟨t, ht, rfl⟩
    have hts : t.symbol = s := by
      have := List.of_mem_filter ht
      simpa using this
    unfold perSellGain
    rw [hts, if_pos h]
  · rw [if_neg h]
    unfold symbolTxns
    refine congrArg List.sum (List.map_congr_left ?_)
    intro t ht
    have hts : t.symbol = s := by
      have := List.of_mem_filter ht
      simpa using this
    unfold perSellGain
    rw [hts, if_neg h]

/-! ## Portfolio breakdown (`get_portfolio_breakdown`,
portfolio.py lines 77–134). -/

/-- The snapshot returned by `get_stock_info`: the fields the core logic
reads (each with the `.get(…, default)` already applied). -/
structure StockInfo where
  sector : String
  marketCap : ℚ
  dayChangePercent : ℚ
  volume : ℚ
  avgVolume : ℚ
deriving Repr, DecidableEq

/-- One entry of the `by_value` dict: `{quantity, price, value, weight}`. -/
structure PosEntry where
  quantity : ℚ
  price : ℚ
  value : ℚ
  weight : ℚ
deriving Repr, DecidableEq

/-- The breakdown dict of `get_portfolio_breakdown`. -/
structure Breakdown where
  bySector : List (String × ℚ)
  byMarketCap : List (String × ℚ)
  byValue : List (String × PosEntry)
  totalValue : ℚ
deriving Repr

/-- One loop iteration of `get_portfolio_breakdown`: skip a position whose
info or quote is unavailable or whose price is falsy
(`if stock_info and current_price:`); otherwise accumulate the position
value into the total and the three maps, with weight initialised to 0. -/
def breakdownStep (quote : String → Option ℚ)
    (info : String → Option StockInfo) (b : Breakdown) (p : String × ℚ) :
    Breakdown :=
  match info p.1, quote p.1 with
  | some si, some price =>
      if price = 0 then b
      else
        let v := price * p.2
        { bySector := addToKey b.bySector si.sector v
          byMarketCap :=
            addToKey b.byMarketCap (capCategoryBreakdown si.marketCap) v
          byValue := insertKey b.byValue p.1 ⟨p.2, price, v, 0⟩
          totalValue := b.totalValue + v }
  | _, _ => b

/-- The second pass of `get_portfolio_breakdown`: only if the accumulated
total is positive, assign each position its weight
`value / total_value × 100`. -/
def assignWeights (b : Breakdown) : Breakdown :=
  if 0 < b.totalValue then
    { b with
        byValue := b.byValue.map
          (fun q => (q.1,
            { q.2 with weight := q.2.value / b.totalValue * 100 })) }
  else b

/-- `get_portfolio_breakdown`: accumulate values over all priced positions
(first pass), then assign weights (second pass). -/
def getPortfolioBreakdown (quote : String → Option ℚ)
    (info : String → Option StockInfo) (portfolio : List (String × ℚ)) :
    Breakdown :=
  assignWeights (portfolio.foldl (breakdownStep quote info) ⟨[], [], [], 0⟩)

theorem insertKey_of_none {α : Type} {m : List (String × α)} {s : String}
    (h : getKey m s = none) (v : α) : insertKey m s v = m ++ [(s, v)] := by
  unfold insertKey
  rw [h]
  rfl

theorem getKey_map_snd {α β : Type} (g : α → β) (m : List (String × α))
    (s : String) :
    getKey (m.map (fun q => (q.1, g q.2))) s = (getKey m s).map g := by
  induction m with
  | nil => rfl
  | cons p rest ih =>
      by_cases hp : p.1 = s
      · simp [getKey, hp]
      · simp [getKey, hp, ih]

theorem map_fst_map_snd {α β : Type} (g : α → β) (m : List (String × α)) :
    (m.map (fun q => (q.1, g q.2))).map Prod.fst = m.map Prod.fst := by
  induction m with
  | nil => rfl
  | cons p rest ih => simp [ih]

/-- Fold invariant: the by-value entries have pairwise-distinct keys and
their values sum to the accumulated total. -/
theorem breakdown_fold_inv (quote : String → Option ℚ)
    (info : String → Option StockInfo) :
    ∀ (rest : List (String × ℚ)) (b : Breakdown),
      keysNodup b.byValue →
      (∀ k, (getKey b.byValue k).isSome = true → k ∉ rest.map Prod.fst) →
      (rest.map Prod.fst).Nodup →
      (b.byValue.map (fun q => q.2.value)).sum = b.totalValue →
      keysNodup (rest.foldl (breakdownStep quote info) b).byValue ∧
        ((rest.foldl (breakdownStep quote info) b).byValue.map
          (fun q => q.2.value)).sum
          = (rest.foldl (breakdownStep quote info) b).totalValue := by
  intro rest
  induction rest with
  | nil => intro b hnd _ _ hsum; exact ⟨hnd, hsum⟩
  | cons p rest' ih =>
      intro b hnd hdisj hrn hsum
      rw [List.foldl_cons]
      have hrn' : (rest'.map Prod.fst).Nodup := by
        rw [List.map_cons, List.nodup_cons] at hrn
        exact hrn.2
      have hp_rest' : p.1 ∉ rest'.map Prod.fst := by
        rw [List.map_cons, List.nodup_cons] at hrn
        exact hrn.1
      have hbp : getKey b.byValue p.1 = none := by
        cases hg : getKey b.byValue p.1 with
        | none => rfl
        | some e =>
            exfalso
            refine hdisj p.1 (by rw [hg]; rfl) ?_
            rw [List.map_cons]
            exact List.mem_cons_self _ _
      cases hi : info p.1 with
      | none =>
          have hstep : breakdownStep quote info b p = b := by
            simp [breakdownStep, hi]
          rw [hstep]
          refine ih b hnd ?_ hrn' hsum
          intro k hk
          have := hdisj k hk
          rw [List.map_cons] at this
          exact fun hc => this (List.mem_cons_of_mem _ hc)
      | some si =>
          cases hq : quote p.1 with
          | none =>
              have hstep : breakdownStep quote info b p = b := by
                simp [breakdownStep, hi, hq]
              rw [hstep]
              refine ih b hnd ?_ hrn' hsum
              intro k hk
              have := hdisj k hk
              rw [List.map_cons] at this
              exact fun hc => this (List.mem_cons_of_mem _ hc)
          | some price =>
              by_cases hz : price = 0
              · have hstep : breakdownStep quote info b p = b := by
                  simp [breakdownStep, hi, hq, hz]
                rw [hstep]
                refine ih b hnd ?_ hrn' hsum
                intro k hk
                have := hdisj k hk
                rw [List.map_cons] at this
                exact fun hc => this (List.mem_cons_of_mem _ hc)
              · have hstep : breakdownStep quote info b p =
                    { bySector := addToKey b.bySector si.sector (price * p.2)
                      byMarketCap := addToKey b.byMarketCap
                        (capCategoryBreakdown si.marketCap) (price * p.2)
                      byValue := b.byValue
                        ++ [(p.1, ⟨p.2, price, price * p.2, 0⟩)]
                      totalValue := b.totalValue + price * p.2 } := by
                  simp [breakdownStep, hi, hq, hz, insertKey_of_none hbp]
                rw [hstep]
                refine ih _ (keysNodup_append_new hnd hbp _) ?_ hrn' ?_
                · intro k hk
                  rw [getKey_append] at hk
                  cases hg : getKey b.byValue k with
                  | some e =>
                      have := hdisj k (by rw [hg]; rfl)
                      rw [List.map_cons] at this
                      exact fun hc => this (List.mem_cons_of_mem _ hc)
                  | none =>
                      rw [hg] at hk
                      by_cases hks : p.1 = k
                      · subst hks
                        exact hp_rest'
                      · exfalso
                        simp [getKey, hks] at hk
                · simp only [List.map_append, List.sum_append,
                    List.map_cons, List.map_nil, List.sum_cons,
                    List.sum_nil]
                  rw [hsum]
                  ring

theorem sum_mapped_weights (T : ℚ) :
    ∀ m : List (String × PosEntry),
      ((m.map (fun q => (q.1,
          { q.2 with weight := q.2.value / T * 100 }))).map
        (fun q => q.2.weight)).sum
        = (m.map (fun q => q.2.value)).sum / T * 100 := by
  intro m
  induction m with
  | nil => simp
  | cons p rest ih =>
      simp only [List.map_cons, List.sum_cons, ih]
      ring

theorem assignWeights_props (b : Breakdown) (hpos : 0 < b.totalValue)
    (hsum : (b.byValue.map (fun q => q.2.value)).sum = b.totalValue) :
    (∀ s e, getKey (assignWeights b).byValue s = some e →
        e.weight = e.value / (assignWeights b).totalValue * 100) ∧
    ((assignWeights b).byValue.map (fun q => q.2.weight)).sum = 100 := by
  unfold assignWeights
  rw [if_pos hpos]
  constructor
  · intro s e he
    simp only at he ⊢
    rw [getKey_map_snd
      (fun e0 : PosEntry =>
        ({ quantity := e0.quantity, price := e0.price, value := e0.value,
           weight := e0.value / b.totalValue * 100 } : PosEntry))] at he
    cases hg : getKey b.byValue s with
    | none => rw [hg] at he; cases he
    | some e0 =>
        rw [hg] at he
        simp only [Option.map_some'] at he
        have he' := Option.some.inj he
        rw [← he']
  · simp only
    rw [sum_mapped_weights b.totalValue b.byValue, hsum,
      div_self (ne_of_gt hpos), one_mul]

/-! ## Trading rules (`src/utils/trading_rules.py`). -/

/-- The `'type'` tag of a rule dict. -/
inductive RuleType where
  | priceAlert
  | stopLoss
  | takeProfit
  | percentageChange
  | volumeAlert
deriving DecidableEq, Repr

/-- A trading-rule record, flat over the fields the five `create_*`
constructors store (a variant reads only its own fields). -/
structure Rule where
  id : String
  symbol : String
  type : RuleType
  targetPrice : ℚ
  alertType : String
  stopPrice : ℚ
  quantity : ℚ
  percentageThreshold : ℚ
  direction : String
  volumeThreshold : ℚ
  comparison : String
  active : Bool
deriving Repr, DecidableEq

/-- An alert dict: `'type'` (severity), `message`, `rule_id`, `symbol`,
optional `action_suggested`. -/
structure Alert where
  severity : String
  message : String
  ruleId : String
  symbol : String
  actionSuggested : Option String
deriving Repr, DecidableEq

/-- Outcome of an external lookup (`get_stock_price` / `get_stock_info`):
a value, no data, or a raised exception with its message. -/
inductive LookupResult (α : Type) where
  | ok (val : α)
  | missing
  | thrown (msg : String)
deriving Repr, DecidableEq

/-- The `error`-severity alert built by the `except` handler of
`check_trading_rules` (trading_rules.py lines 180–187). -/
def errorAlert (rule : Rule) (e : String) : Alert :=
  { severity := "error"
    message := "Error checking rule for " ++ rule.symbol ++ ": " ++ e
    ruleId := rule.id
    symbol := rule.symbol
    actionSuggested := none }

/-- The warning alert of the stop-loss branch, with its suggested action
`Consider selling {quantity} shares`. -/
def stopLossAlert (rule : Rule) (price : ℚ) : Alert :=
  { severity := "warning"
    message := "STOP LOSS TRIGGERED: " ++ rule.symbol ++ " at "
      ++ toString price ++ " (Stop: " ++ toString rule.stopPrice ++ ")"
    ruleId := rule.id
    symbol := rule.symbol
    actionSuggested :=
      some ("Consider selling " ++ toString rule.quantity ++ " shares") }

/-- The per-variant trigger logic of `check_trading_rules`, reached once a
truthy price and info snapshot are in hand. -/
def evalRule (rule : Rule) (price : ℚ) (info : StockInfo) : Option Alert :=
  match rule.type with
  | .priceAlert =>
      if rule.alertType = "above" ∧ rule.targetPrice ≤ price then
        some ⟨"warning",
          rule.symbol ++ " has reached target price "
            ++ toString rule.targetPrice,
          rule.id, rule.symbol, none⟩
      else if rule.alertType = "below" ∧ price ≤ rule.targetPrice then
        some ⟨"warning",
          rule.symbol ++ " has dropped to " ++ toString rule.targetPrice,
          rule.id, rule.symbol, none⟩
      else none
  | .stopLoss =>
      if price ≤ rule.stopPrice then some (stopLossAlert rule price)
      else none
  | .takeProfit =>
      if rule.targetPrice ≤ price then
        some ⟨"success",
          "TAKE PROFIT: " ++ rule.symbol ++ " reached "
            ++ toString rule.targetPrice,
          rule.id, rule.symbol,
          some ("Consider selling " ++ toString rule.quantity ++ " shares")⟩
      else none
  | .percentageChange =>
      if rule.direction = "up"
          ∧ rule.percentageThreshold ≤ info.dayChangePercent then
        some ⟨"info",
          rule.symbol ++ " up " ++ toString info.dayChangePercent
            ++ " percent today",
          rule.id, rule.symbol, none⟩
      else if rule.direction = "down"
          ∧ info.dayChangePercent ≤ -rule.percentageThreshold then
        some ⟨"warning",
          rule.symbol ++ " down " ++ toString info.dayChangePercent
            ++ " percent today",
          rule.id, rule.symbol, none⟩
      else none
  | .volumeAlert =>
      let vr := if 0 < info.avgVolume then info.volume / info.avgVolume
        else 0
      if rule.comparison = "above" ∧ rule.volumeThreshold ≤ vr then
        some ⟨"info",
          rule.symbol ++ " volume " ++ toString vr ++ "x average",
          rule.id, rule.symbol, none⟩
      else if rule.comparison = "below" ∧ vr ≤ rule.volumeThreshold then
        some ⟨"info",
          rule.symbol ++ " low volume " ++ toString vr ++ "x average",
          rule.id, rule.symbol, none⟩
      else none

/-- `check_trading_rules` (trading_rules.py lines 65–187): an inactive rule
yields nothing before any lookup; then the price lookup (an exception gives
the error alert; a falsy price gives nothing), then the info lookup
(likewise), then the per-variant trigger logic. -/
def checkTradingRules (rule : Rule) (quoteRes : LookupResult ℚ)
    (infoRes : LookupResult StockInfo) : Option Alert :=
  if rule.active then
    match quoteRes with
    | .thrown e => some (errorAlert rule e)
    | .missing => none
    | .ok price =>
        if price = 0 then none
        else
          match infoRes with
          | .thrown e => some (errorAlert rule e)
          | .missing => none
          | .ok info => evalRule rule price info
  else none

/-- `validate_rule` (trading_rules.py lines 214–244), before the symbol
lookup: the required-field and enum checks per variant. -/
def validationBaseErrors (rule : Rule) : List String :=
  (if rule.symbol = "" then ["Symbol is required"] else [])
  ++ (match rule.type with
      | .priceAlert | .takeProfit =>
          if rule.targetPrice ≤ 0 then
            ["Target Price must be greater than 0"]
          else []
      | .stopLoss =>
          if rule.stopPrice ≤ 0 then
            ["Stop Price must be greater than 0"]
          else []
      | .percentageChange =>
          (if rule.percentageThreshold ≤ 0 then
            ["Percentage threshold must be greater than 0"]
          else [])
          ++ (if rule.direction = "up" ∨ rule.direction = "down" then []
              else ["Direction must be up or down"])
      | .volumeAlert =>
          (if rule.volumeThreshold ≤ 0 then
            ["Volume threshold must be greater than 0"]
          else [])
          ++ (if rule.comparison = "above" ∨ rule.comparison = "below" then
                []
              else ["Comparison must be above or below"]))

/-- `validate_rule` (trading_rules.py lines 214–254): the per-variant
checks, then — only for a non-empty symbol with no errors so far — the
symbol-existence lookup, whose failure or absence appends an error. -/
def validateRule (rule : Rule) (infoRes : LookupResult StockInfo) :
    List String :=
  let errs := validationBaseErrors rule
  if rule.symbol ≠ "" ∧ errs = [] then
    errs ++ (match infoRes with
      | .ok _ => []
      | .missing => ["Invalid symbol: " ++ rule.symbol]
      | .thrown _ => ["Could not validate symbol: " ++ rule.symbol])
  else errs

/-- The required positive price/threshold field of each variant. -/
def requiredField (rule : Rule) : ℚ :=
  match rule.type with
  | .priceAlert | .takeProfit => rule.targetPrice
  | .stopLoss => rule.stopPrice
  | .percentageChange => rule.percentageThreshold
  | .volumeAlert => rule.volumeThreshold

/-- A concrete stop-loss rule at stop price 180 holding 7 shares. -/
def demoStopRule : Rule :=
  ⟨"r1", "AAPL", RuleType.stopLoss, 0, "", 180, 7, 0, "", 0, "", true⟩

/-- A concrete inactive rule. -/
def demoInactiveRule : Rule :=
  ⟨"r3", "MSFT", RuleType.priceAlert, 100, "above", 0, 0, 0, "", 0, "",
    false⟩

/-- A concrete volume-alert rule with threshold 0. -/
def vol0Rule : Rule :=
  ⟨"r2", "AAPL", RuleType.volumeAlert, 0, "", 0, 0, 0, "", 0, "above",
    true⟩

/-- A concrete info snapshot. -/
def demoInfo : StockInfo := ⟨"Tech", 1000000, 0, 0, 0⟩

theorem validateRule_ne_nil_of_base {rule : Rule}
    (h : validationBaseErrors rule ≠ []) (ires : LookupResult StockInfo) :
    validateRule rule ires ≠ [] := by
  unfold validateRule
  by_cases hc : rule.symbol ≠ "" ∧ validationBaseErrors rule = []
  · exact absurd hc.2 h
  · rw [if_neg hc]
    exact h

theorem validateRule_lookup_fail_ne_nil (rule : Rule)
    (ires : LookupResult StockInfo)
    (hfail : match ires with
      | LookupResult.ok _ => False
      | _ => True) :
    validateRule rule ires ≠ [] := by
  unfold validateRule
  by_cases hc : rule.symbol ≠ "" ∧ validationBaseErrors rule = []
  · rw [if_pos hc, hc.2]
    cases ires with
    | ok i => exact hfail.elim
    | missing => simp
    | thrown e => simp
  · rw [if_neg hc]
    by_cases hs : rule.symbol = ""
    · simp [validationBaseErrors, hs]
    · intro hnil
      exact hc ⟨hs, hnil⟩

/-- Concrete input for C3: buy 10 AAPL @ 100, sell 4 @ 120. -/
def c3ex : List Txn :=
  [⟨"AAPL", TxnType.buy, 10, 100⟩, ⟨"AAPL", TxnType.sell, 4, 120⟩]

/-- Counterexample input for C2: sell 1 share of `"A"` while holding
nothing, then buy 1 share. -/
def c2ce : List Txn :=
  [⟨"A", TxnType.sell, 1, 1⟩, ⟨"A", TxnType.buy, 1, 1⟩]

/-- Witness input for the amended C2: buy 2, then sell 1 (no oversell). -/
def c2w : List Txn :=
  [⟨"A", TxnType.buy, 2, 10⟩, ⟨"A", TxnType.sell, 1, 12⟩]

/-- Witness inputs for C6: one holding of 2 shares priced at 5. -/
def c6port : List (String × ℚ) := [("A", 2)]

/-- C6 witness quote source: every symbol priced at 5. -/
def c6quote : String → Option ℚ := fun _ => some 5

/-- C6 witness info source: a fixed snapshot for every symbol. -/
def c6info : String → Option StockInfo := fun _ => some ⟨"Tech", 1000000, 0, 0, 0⟩

end StockTracker

open StockTracker

/-- C2: the incremental update of `add_transaction` and the full replay of
`src/app.py` are NOT equivalent for every positive-quantity ledger: after
selling 1 share of `"A"` while holding nothing (the sell is ignored
incrementally but accumulated by the replay) and then buying 1 share, the
incremental holdings keep `"A" ↦ 1` while the full replay drops `"A"`
(its accumulated signed quantity is `0 ≤ 0`). -/
theorem c2_incremental_ne_replay_counterexample :
    posQty c2ce ∧
    getKey (incrementalHoldings c2ce) "A" = some 1 ∧
    getKey (computeHoldings c2ce) "A" = none := by
  refine ⟨by decide, ?_, ?_⟩
  · norm_num [c2ce, incrementalHoldings, applyTxn, getKey, setKey,
      eraseKey, signedQty]
  · norm_num [c2ce, computeHoldings, rawHoldings, accumStep, getKey,
      setKey, signedQty]

/-- C2 (amended): for a ledger of positive-quantity buy/sell transactions in
which no sell asks for more than the net quantity accumulated so far for
its symbol, applying the transactions one at a time through the incremental
update of `add_transaction` yields exactly the same symbol→quantity mapping
as the single full replay that accumulates signed quantities and drops
symbols with accumulated quantity ≤ 0. -/
theorem c2_incremental_eq_replay (txs : List Txn)
    (hq : posQty txs) (hno : noOversell txs) (s : String) :
    getKey (incrementalHoldings txs) s = getKey (computeHoldings txs) s := by
  rw [getKey_computeHoldings]
  have h := getKey_foldl_applyTxn txs [] [] keysNodup_nil
    (fun s' => by simp [getKey, posOnly, accQty])
    (fun s' => le_refl 0) hq hno s
  simpa [incrementalHoldings] using h

/-- C2 witness: the amended equivalence holds on the concrete no-oversell
ledger `buy 2 A; sell 1 A`. -/
theorem c2_incremental_eq_replay_witness :
    getKey (incrementalHoldings c2w) "A" = getKey (computeHoldings c2w) "A" :=
  c2_incremental_eq_replay c2w
    (by decide)
    (by
      constructor
      · intro h; cases h
      constructor
      · intro _; norm_num [accQty, signedQty]
      · trivial)
    "A"

/-- C5: the full replay of `src/app.py` — empty accumulator, `+quantity` on
buy and `−quantity` on sell in ledger order, then dropping non-positive
accumulations — never retains a symbol whose accumulated signed quantity is
≤ 0; in particular a symbol bought 10 and then sold 10 is absent. -/
theorem c5_replay_drops_nonpositive (txs : List Txn) (s : String) :
    (accQty txs s ≤ 0 → getKey (computeHoldings txs) s = none) ∧
    getKey
      (computeHoldings
        [⟨"A", TxnType.buy, 10, 10⟩, ⟨"A", TxnType.sell, 10, 12⟩])
      "A" = none := by
  constructor
  · intro h
    rw [getKey_computeHoldings]
    simp [posOnly, not_lt_of_le h]
  · norm_num [computeHoldings, rawHoldings, accumStep, getKey, setKey,
      signedQty]

/-- C5 witness: a symbol sold 5 with nothing bought has accumulated quantity
≤ 0 and is absent from the replayed holdings. -/
theorem c5_replay_drops_nonpositive_witness :
    getKey (computeHoldings [⟨"B", TxnType.sell, 5, 1⟩]) "B" = none :=
  (c5_replay_drops_nonpositive [⟨"B", TxnType.sell, 5, 1⟩] "B").1
    (by norm_num [accQty, signedQty])

/-- C1: the claim says the portfolio-breakdown classification assigns the six
stated bands; but `get_portfolio_breakdown` classifies a market cap of 200B
as "Large Cap", not "Mega Cap". -/
theorem c1_breakdown_band_counterexample :
    StockTracker.capCategoryBreakdown StockTracker.twoHundredBillion
      = "Large Cap" ∧
    StockTracker.specSixBand StockTracker.twoHundredBillion = "Mega Cap" ∧
    StockTracker.capCategoryBreakdown StockTracker.twoHundredBillion
      ≠ StockTracker.specSixBand StockTracker.twoHundredBillion := by
  refine ⟨by decide, by decide, by decide⟩

/-- C1 (amended): `categorize_by_market_cap` implements exactly the six
stated bands (Mega ≥200B, Large ≥10B, Mid ≥2B, Small ≥300M, Micro ≥50M,
else Nano), but the classification inlined in `get_portfolio_breakdown`
assigns only four bands — Large ≥10B, Mid ≥2B, Small ≥300M, else Micro. -/
theorem c1_market_cap_bands (mc : ℚ) :
    StockTracker.categorizeByMarketCap mc = StockTracker.specSixBand mc ∧
    StockTracker.capCategoryBreakdown mc = StockTracker.specFourBand mc := by
  constructor <;> rfl

/-- C3: the realized-gains loop of `calculate_portfolio_metrics` computes,
for every transaction list, exactly the sum over sell transactions of
`(sell price − average buy cost) × sell quantity` — with the average cost
taken from buys only and a symbol with sells but no buys skipped — and on
the concrete input buy 10 AAPL @ 100, sell 4 @ 120 it yields 80. -/
theorem realizedGains_eq_spec (txs : List Txn) :
    realizedGains txs = specRealizedGains txs := by
  rw [realizedGains_eq_sum_groups]
  have h1 :
      ((uniqueFirst ((sellTxns txs).map Txn.symbol)).map
        (sellGroupTerm txs)).sum
        = ((uniqueFirst ((sellTxns txs).map Txn.symbol)).map
            (fun s => (((sellTxns txs).filter (fun u => u.symbol = s)).map
              (perSellGain txs)).sum)).sum := by
    refine congrArg List.sum (List.map_congr_left ?_)
    intro s _
    exact sellGroupTerm_eq_group txs s
  rw [h1,
    group_sum (perSellGain txs) (sellTxns txs)
      (uniqueFirst ((sellTxns txs).map Txn.symbol))
      (nodup_uniqueFirst _)
      (fun t ht =>
        (mem_uniqueFirst _ _).mpr (List.mem_map_of_mem Txn.symbol ht))]
  rfl

theorem c3_realized_gains (txs : List Txn) :
    realizedGains txs = specRealizedGains txs ∧ realizedGains c3ex = 80 := by
  refine ⟨realizedGains_eq_spec txs, ?_⟩
  rw [realizedGains_eq_spec c3ex]
  have hbs : ¬(TxnType.buy = TxnType.sell) := fun hh => by cases hh
  have hsb : ¬(TxnType.sell = TxnType.buy) := fun hh => by cases hh
  norm_num [c3ex, specRealizedGains, perSellGain, sellTxns, buyTxns,
    symbolTxns, sumQP, sumQ, avgBuyPrice, List.filter_cons, List.filter_nil,
    List.isEmpty, hbs, hsb]

/-- C4: on every non-empty transaction list, the metrics of
`calculate_portfolio_metrics` satisfy exactly
`unrealizedGains = totalCurrentValue − totalInvested + realizedGains`,
`totalReturn = realizedGains + unrealizedGains`, and
`totalReturnPercent = totalReturn / totalInvested × 100` when
`totalInvested > 0` and `0` when `totalInvested = 0`. -/
theorem c4_metrics_identities (quote : String → Option ℚ)
    (portfolio : List (String × ℚ)) (txs : List Txn) (h : txs ≠ []) :
    ∃ m, calculatePortfolioMetrics quote portfolio txs = some m ∧
      m.unrealizedGains
        = m.totalCurrentValue - m.totalInvested + m.realizedGains ∧
      m.totalReturn = m.realizedGains + m.unrealizedGains ∧
      (0 < m.totalInvested →
        m.totalReturnPercent = m.totalReturn / m.totalInvested * 100) ∧
      (m.totalInvested = 0 → m.totalReturnPercent = 0) := by
  have hne : ¬(txs.isEmpty = true) := by simpa using h
  unfold calculatePortfolioMetrics
  rw [if_neg hne]
  refine ⟨_, rfl, rfl, rfl, ?_, ?_⟩
  · intro hpos
    have hpos' : 0 < sumQP (buyTxns txs) := by simpa using hpos
    simp [hpos']
  · intro hz
    have hz' : sumQP (buyTxns txs) = 0 := by simpa using hz
    simp [hz']

/-- C4 witness: the identities hold on the concrete input of one buy
transaction with no priced holdings. -/
theorem c4_metrics_identities_witness :
    ∃ m, calculatePortfolioMetrics (fun _ => none) []
        [⟨"A", TxnType.buy, 1, 1⟩] = some m ∧
      m.unrealizedGains
        = m.totalCurrentValue - m.totalInvested + m.realizedGains ∧
      m.totalReturn = m.realizedGains + m.unrealizedGains ∧
      (0 < m.totalInvested →
        m.totalReturnPercent = m.totalReturn / m.totalInvested * 100) ∧
      (m.totalInvested = 0 → m.totalReturnPercent = 0) :=
  c4_metrics_identities (fun _ => none) [] [⟨"A", TxnType.buy, 1, 1⟩]
    (by simp)

/-- C6: in every portfolio breakdown with positive total value (over
distinct holding symbols, as in a Python dict), each by-position entry's
weight equals its value divided by the total value times 100 — assigned
only after the total has been fully accumulated — and the weights sum to
exactly 100. -/
theorem c6_breakdown_weights (quote : String → Option ℚ)
    (info : String → Option StockInfo) (portfolio : List (String × ℚ))
    (hnd : keysNodup portfolio)
    (hpos : 0 < (getPortfolioBreakdown quote info portfolio).totalValue) :
    (∀ s e,
      getKey (getPortfolioBreakdown quote info portfolio).byValue s = some e →
        e.weight
          = e.value
              / (getPortfolioBreakdown quote info portfolio).totalValue
              * 100) ∧
    ((getPortfolioBreakdown quote info portfolio).byValue.map
      (fun q => q.2.weight)).sum = 100 := by
  have hinv := breakdown_fold_inv quote info portfolio ⟨[], [], [], 0⟩
    List.nodup_nil (fun k hk => by simp [getKey] at hk) hnd (by simp)
  have htot :
      (assignWeights
        (portfolio.foldl (breakdownStep quote info) ⟨[], [], [], 0⟩)).totalValue
      = (portfolio.foldl (breakdownStep quote info)
          (⟨[], [], [], 0⟩ : Breakdown)).totalValue := by
    unfold assignWeights
    by_cases h : 0 < (portfolio.foldl (breakdownStep quote info)
        (⟨[], [], [], 0⟩ : Breakdown)).totalValue
    · rw [if_pos h]
    · rw [if_neg h]
  have hpos' : 0 < (portfolio.foldl (breakdownStep quote info)
      (⟨[], [], [], 0⟩ : Breakdown)).totalValue := by
    have h0 := hpos
    unfold getPortfolioBreakdown at h0
    rwa [htot] at h0
  have h := assignWeights_props _ hpos' hinv.2
  unfold getPortfolioBreakdown
  exact h

/-- C6 witness: the weight properties hold on a one-position portfolio
priced at 5 with quantity 2 (total value 10). -/
theorem c6_breakdown_weights_witness :
    (∀ s e,
      getKey (getPortfolioBreakdown c6quote c6info c6port).byValue s = some e →
        e.weight
          = e.value
              / (getPortfolioBreakdown c6quote c6info c6port).totalValue
              * 100) ∧
    ((getPortfolioBreakdown c6quote c6info c6port).byValue.map
      (fun q => q.2.weight)).sum = 100 :=
  c6_breakdown_weights c6quote c6info c6port
    (by simp [keysNodup, c6port])
    (by norm_num [getPortfolioBreakdown, assignWeights, breakdownStep,
      c6port, c6quote, c6info, addToKey, insertKey, getKey, setKey,
      capCategoryBreakdown])

/-- C7: for an active stop-loss rule with a truthy quote and an available
info snapshot, `check_trading_rules` fires exactly when the live price is
≤ the stop price; the fired alert has warning severity and suggests selling
the rule's stored quantity of shares; above the stop price no alert is
produced. -/
theorem c7_stop_loss_fires (rule : Rule) (price : ℚ) (info : StockInfo)
    (hact : rule.active = true) (hty : rule.type = RuleType.stopLoss)
    (hp : price ≠ 0) :
    checkTradingRules rule (LookupResult.ok price) (LookupResult.ok info)
      = (if price ≤ rule.stopPrice then some (stopLossAlert rule price)
          else none) ∧
    (stopLossAlert rule price).severity = "warning" ∧
    (stopLossAlert rule price).actionSuggested
      = some ("Consider selling " ++ toString rule.quantity ++ " shares") := by
  refine ⟨?_, rfl, rfl⟩
  simp [checkTradingRules, hact, hp, evalRule, hty]

/-- C7 witness: stop price 180 — live price 179 fires the warning alert
with the suggested action; live price 181 yields no alert. -/
theorem c7_stop_loss_fires_witness :
    checkTradingRules demoStopRule (LookupResult.ok 179)
        (LookupResult.ok demoInfo)
      = some (stopLossAlert demoStopRule 179) ∧
    checkTradingRules demoStopRule (LookupResult.ok 181)
        (LookupResult.ok demoInfo)
      = none := by
  constructor
  · have h := (c7_stop_loss_fires demoStopRule 179 demoInfo rfl rfl
      (by norm_num)).1
    rw [h]
    norm_num [demoStopRule]
  · have h := (c7_stop_loss_fires demoStopRule 181 demoInfo rfl rfl
      (by norm_num)).1
    rw [h]
    norm_num [demoStopRule]

/-- C9: for an active rule, a lookup that returns no data yields no alert
this cycle, while a lookup that raises yields an error-severity alert whose
message names the rule's symbol and whose ruleId is the rule's id. -/
theorem c9_lookup_failure_modes (rule : Rule) (hact : rule.active = true) :
    (∀ ires, checkTradingRules rule LookupResult.missing ires = none) ∧
    (∀ p : ℚ, checkTradingRules rule (LookupResult.ok p)
      LookupResult.missing = none) ∧
    (∀ e ires, checkTradingRules rule (LookupResult.thrown e) ires
      = some (errorAlert rule e)) ∧
    (∀ (p : ℚ) e, p ≠ 0 → checkTradingRules rule (LookupResult.ok p)
      (LookupResult.thrown e) = some (errorAlert rule e)) ∧
    (∀ e, (errorAlert rule e).severity = "error" ∧
      (errorAlert rule e).ruleId = rule.id ∧
      ∃ pre post, (errorAlert rule e).message = pre ++ rule.symbol ++ post) := by
  refine ⟨?_, ?_, ?_, ?_, ?_⟩
  · intro ires
    simp [checkTradingRules, hact]
  · intro p
    by_cases hp : p = 0
    · simp [checkTradingRules, hact, hp]
    · simp [checkTradingRules, hact, hp]
  · intro e ires
    simp [checkTradingRules, hact]
  · intro p e hp
    simp [checkTradingRules, hact, hp]
  · intro e
    refine ⟨rfl, rfl, "Error checking rule for ", ": " ++ e, ?_⟩
    simp [errorAlert, String.append_assoc]

/-- C9 witness: on the concrete active stop-loss rule, a thrown quote
lookup yields the error alert, and a missing quote yields no alert. -/
theorem c9_lookup_failure_modes_witness :
    checkTradingRules demoStopRule (LookupResult.thrown "boom")
        (LookupResult.ok demoInfo)
      = some (errorAlert demoStopRule "boom") ∧
    checkTradingRules demoStopRule LookupResult.missing
        (LookupResult.ok demoInfo)
      = none :=
  ⟨(c9_lookup_failure_modes demoStopRule rfl).2.2.1 "boom"
      (LookupResult.ok demoInfo),
    (c9_lookup_failure_modes demoStopRule rfl).1
      (LookupResult.ok demoInfo)⟩

/-- C10: a rule whose `active` field is false yields no alert whatsoever —
for every quote and info lookup outcome, including raised exceptions — so
an inactive rule can never produce even the error-severity alert. -/
theorem c10_inactive_never_alerts (rule : Rule)
    (hina : rule.active = false) (qres : LookupResult ℚ)
    (ires : LookupResult StockInfo) :
    checkTradingRules rule qres ires = none := by
  simp [checkTradingRules, hina]

/-- C10 witness: the concrete inactive rule yields no alert even when both
lookups raise. -/
theorem c10_inactive_never_alerts_witness :
    checkTradingRules demoInactiveRule (LookupResult.thrown "x")
      (LookupResult.thrown "y") = none :=
  c10_inactive_never_alerts demoInactiveRule rfl
    (LookupResult.thrown "x") (LookupResult.thrown "y")

/-- C8: `validate_rule` returns a non-empty error list whenever the
variant's required price/threshold field is non-positive (in particular a
volume alert with threshold 0), whenever a direction/comparison enum field
holds an invalid value, and whenever the symbol-info lookup returns nothing
or raises — the rule is never silently accepted in these cases. -/
theorem c8_validate_rejects (rule : Rule) (ires : LookupResult StockInfo)
    (e : String) :
    (requiredField rule ≤ 0 → validateRule rule ires ≠ []) ∧
    (rule.type = RuleType.percentageChange → rule.direction ≠ "up" →
      rule.direction ≠ "down" → validateRule rule ires ≠ []) ∧
    (rule.type = RuleType.volumeAlert → rule.comparison ≠ "above" →
      rule.comparison ≠ "below" → validateRule rule ires ≠ []) ∧
    validateRule rule LookupResult.missing ≠ [] ∧
    validateRule rule (LookupResult.thrown e) ≠ [] := by
  refine ⟨?_, ?_, ?_, ?_, ?_⟩
  · intro h
    refine validateRule_ne_nil_of_base ?_ ires
    cases hty : rule.type with
    | priceAlert =>
        have h' : rule.targetPrice ≤ 0 := by
          simpa [requiredField, hty] using h
        simp [validationBaseErrors, hty, h']
    | takeProfit =>
        have h' : rule.targetPrice ≤ 0 := by
          simpa [requiredField, hty] using h
        simp [validationBaseErrors, hty, h']
    | stopLoss =>
        have h' : rule.stopPrice ≤ 0 := by
          simpa [requiredField, hty] using h
        simp [validationBaseErrors, hty, h']
    | percentageChange =>
        have h' : rule.percentageThreshold ≤ 0 := by
          simpa [requiredField, hty] using h
        simp [validationBaseErrors, hty, h']
    | volumeAlert =>
        have h' : rule.volumeThreshold ≤ 0 := by
          simpa [requiredField, hty] using h
        simp [validationBaseErrors, hty, h']
  · intro hty h1 h2
    refine validateRule_ne_nil_of_base ?_ ires
    simp [validationBaseErrors, hty, h1, h2]
  · intro hty h1 h2
    refine validateRule_ne_nil_of_base ?_ ires
    simp [validationBaseErrors, hty, h1, h2]
  · exact validateRule_lookup_fail_ne_nil rule LookupResult.missing trivial
  · exact validateRule_lookup_fail_ne_nil rule (LookupResult.thrown e)
      trivial

/-- C8 witness: the volume alert with threshold 0 is rejected with a
non-empty error list even when the symbol lookup succeeds. -/
theorem c8_validate_rejects_witness :
    validateRule vol0Rule (LookupResult.ok demoInfo) ≠ [] :=
  (c8_validate_rejects vol0Rule (LookupResult.ok demoInfo) "").1
    (by simp [requiredField, vol0Rule])
